import Mathlib

/-!
Shallow embedding of the incremental chain-scanning scripts of the
jayworrly/graph-query repository (`paraswap-incremental.py`, `multi.py`,
`filtered_token.py`, `scripts/paraswap_backfill.py`,
`historical_token_scan.py`), together with theorems settling the spec
claims about resuming, chunking, log filtering, trade decoding and the
database upserts.
-/

namespace GraphQuery

/-! ### Constants (src/paraswap-incremental.py, lines 44-51) -/

def TRANSFER_EVENT_SIG : String :=
  "0xddf252ad1be2c89b69c2b068fc378daa952ba7f163c4a11628f55a4df523b3ef"

def PARASWAP_ADDRESS : String := "0x6a000f20005980200259b80c5102003040001068"

def FALLBACK_START_BLOCK : Nat := 61473123

def BLOCK_CHUNK_SIZE : Nat := 2000

/-! ### Block chunking (src/paraswap-incremental.py, lines 284-291)

`scan_incremental_blocks` builds the chunk list with

    current_start = start_block
    while current_start < end_block:
        current_end = min(current_start + BLOCK_CHUNK_SIZE, end_block)
        block_chunks.append((current_start, current_end))
        current_start = current_end

The loop advances `current_start` by at least one block per iteration, so
`end_block - start_block` steps of fuel suffice; `blockChunksAux` is the
loop body and `blockChunks` supplies that fuel. -/

def blockChunksAux : Nat → Nat → Nat → List (Nat × Nat)
  | 0, _, _ => []
  | fuel + 1, cur, e =>
    if cur < e then
      (cur, min (cur + BLOCK_CHUNK_SIZE) e) ::
        blockChunksAux fuel (min (cur + BLOCK_CHUNK_SIZE) e) e
    else []

def blockChunks (s e : Nat) : List (Nat × Nat) :=
  blockChunksAux (e - s) s e

/-- The resume rule of the `__main__` block (line 506):
`start_block = get_last_scanned_block() + 1`. -/
def incremental_start_block (last_scanned : Nat) : Nat := last_scanned + 1

theorem blockChunksAux_self (fuel e : Nat) : blockChunksAux fuel e e = [] := by
  cases fuel with
  | zero => rfl
  | succ n => simp [blockChunksAux]

theorem blockChunksAux_mem {fuel cur e : Nat} {c : Nat × Nat}
    (hc : c ∈ blockChunksAux fuel cur e) :
    cur ≤ c.1 ∧ c.1 < c.2 ∧ c.2 ≤ e ∧ c.2 - c.1 ≤ BLOCK_CHUNK_SIZE := by
  induction fuel generalizing cur with
  | zero => simp [blockChunksAux] at hc
  | succ n ih =>
    by_cases h : cur < e
    · simp only [blockChunksAux, if_pos h, List.mem_cons] at hc
      rcases hc with rfl | hc
      · refine ⟨le_refl _, ?_, ?_, ?_⟩
        · exact lt_min (Nat.lt_add_of_pos_right (by decide)) h
        · exact min_le_right _ _
        · simp only [Nat.sub_le_iff_le_add]
          exact le_trans (min_le_left _ _) (by omega)
      · have := ih hc
        exact ⟨le_trans (le_min (Nat.le_add_right _ _) (le_of_lt h)) this.1,
          this.2.1, this.2.2.1, this.2.2.2⟩
    · simp only [blockChunksAux, if_neg h] at hc
      simp at hc

theorem blockChunksAux_head {fuel cur e : Nat} {c : Nat × Nat}
    (h : (blockChunksAux fuel cur e).head? = some c) : c.1 = cur := by
  cases fuel with
  | zero => simp [blockChunksAux] at h
  | succ n =>
    by_cases hlt : cur < e
    · simp only [blockChunksAux, if_pos hlt, List.head?_cons, Option.some_inj] at h
      rw [← h]
    · simp [blockChunksAux, if_neg hlt] at h

theorem blockChunksAux_chain (fuel cur e : Nat) :
    List.Chain' (fun a b => a.2 = b.1) (blockChunksAux fuel cur e) := by
  induction fuel generalizing cur with
  | zero => simp [blockChunksAux]
  | succ n ih =>
    by_cases h : cur < e
    · simp only [blockChunksAux, if_pos h]
      rw [List.chain'_cons']
      refine ⟨?_, ih _⟩
      intro b hb
      exact (blockChunksAux_head hb).symm
    · simp [blockChunksAux, if_neg h]

theorem blockChunksAux_cover {fuel cur e x : Nat} (hfuel : e - cur ≤ fuel)
    (hcur : cur ≤ x) (hxe : x ≤ e) (hlt : cur < e) :
    ∃ c ∈ blockChunksAux fuel cur e, c.1 ≤ x ∧ x ≤ c.2 := by
  induction fuel generalizing cur with
  | zero => omega
  | succ n ih =>
    simp only [blockChunksAux, if_pos hlt]
    by_cases hx : x ≤ min (cur + BLOCK_CHUNK_SIZE) e
    · exact ⟨(cur, min (cur + BLOCK_CHUNK_SIZE) e), List.mem_cons_self _ _, hcur, hx⟩
    · push_neg at hx
      have hm : min (cur + BLOCK_CHUNK_SIZE) e < e := lt_of_lt_of_le hx hxe
      have hstep : cur < min (cur + BLOCK_CHUNK_SIZE) e := by
        have : 0 < BLOCK_CHUNK_SIZE := by decide
        exact lt_min (by omega) hlt
      obtain ⟨c, hc, h1, h2⟩ := @ih (min (cur + BLOCK_CHUNK_SIZE) e)
        (by omega) (le_of_lt hx) hm
      exact ⟨c, List.mem_cons_of_mem _ hc, h1, h2⟩

theorem blockChunksAux_last {fuel cur e : Nat} (hfuel : e - cur ≤ fuel)
    (hlt : cur < e) :
    ((blockChunksAux fuel cur e).getLast?).map Prod.snd = some e := by
  induction fuel generalizing cur with
  | zero => omega
  | succ n ih =>
    simp only [blockChunksAux, if_pos hlt]
    by_cases hm : min (cur + BLOCK_CHUNK_SIZE) e = e
    · rw [hm, blockChunksAux_self]
      simp
    · have hme : min (cur + BLOCK_CHUNK_SIZE) e < e :=
        lt_of_le_of_ne (min_le_right _ _) hm
      have hstep : cur < min (cur + BLOCK_CHUNK_SIZE) e := by
        have : 0 < BLOCK_CHUNK_SIZE := by decide
        exact lt_min (by omega) hlt
      have htail := @ih (min (cur + BLOCK_CHUNK_SIZE) e) (by omega) hme
      rcases hrest : blockChunksAux n (min (cur + BLOCK_CHUNK_SIZE) e) e with _ | ⟨r, rs⟩
      · rw [hrest] at htail; simp at htail
      · rw [hrest] at htail
        rw [List.getLast?_cons_cons]
        exact htail

/-! ### Python string primitives

Kernel-computable models of the Python string operations the scanner
uses: `str.lower`, slicing `s[-40:]`, `str.strip` and `startswith('0x')`. -/

def pyLower (s : String) : String := ⟨s.toList.map Char.toLower⟩

def pyTakeRight (s : String) (n : Nat) : String :=
  ⟨s.toList.drop (s.toList.length - n)⟩

def isPySpace (c : Char) : Bool :=
  c = ' ' || c = '\t' || c = '\n' || c = '\r' || c = '\x0b' || c = '\x0c'

def pyStrip (s : String) : String :=
  ⟨((s.toList.dropWhile isPySpace).reverse.dropWhile isPySpace).reverse⟩

def pyStartsWith0x (s : String) : Bool :=
  match s.toList with
  | '0' :: 'x' :: _ => true
  | _ => false

/-! ### Python `int(s, 16)` (used on `data` and `blockNumber`, lines 400-403)

Python's `int(s, 16)` strips surrounding whitespace, accepts an optional
sign, an optional `0x`/`0X` prefix and a nonempty run of hex digits with
single underscores permitted between digits (or directly after the
prefix); anything else raises `ValueError`, modelled as `none`.  Note the
sign: `int('-ff', 16)` is `-255`. -/

def hexDigitVal (c : Char) : Option Nat :=
  if '0' ≤ c ∧ c ≤ '9' then some (c.toNat - '0'.toNat)
  else if 'a' ≤ c ∧ c ≤ 'f' then some (c.toNat - 'a'.toNat + 10)
  else if 'A' ≤ c ∧ c ≤ 'F' then some (c.toNat - 'A'.toNat + 10)
  else none

/-- Digit run: `canU` records whether an underscore may appear next and
`ok` whether the run may legally end here (at least one digit seen and the
last character was a digit). -/
def parseHexRun : Bool → Bool → Nat → List Char → Option Nat
  | _, ok, acc, [] => if ok then some acc else none
  | canU, _, acc, c :: cs =>
    if c = '_' then
      if canU then parseHexRun false false acc cs else none
    else
      match hexDigitVal c with
      | some d => parseHexRun true true (acc * 16 + d) cs
      | none => none

def parseHexBody : List Char → Option Nat
  | '0' :: 'x' :: cs => parseHexRun true false 0 cs
  | '0' :: 'X' :: cs => parseHexRun true false 0 cs
  | cs => parseHexRun false false 0 cs

def pyIntHex (s : String) : Option Int :=
  match (pyStrip s).toList with
  | '+' :: cs =>
    match parseHexBody cs with
    | some n => some (Int.ofNat n)
    | none => none
  | '-' :: cs =>
    match parseHexBody cs with
    | some n => some (-(Int.ofNat n))
    | none => none
  | cs =>
    match parseHexBody cs with
    | some n => some (Int.ofNat n)
    | none => none

/-! ### Logs and the Arena/ParaSwap filter (lines 310-330) -/

/-- An `eth_getLogs` entry, with the fields the scanner reads.  `data` is
optional because the code accesses it as `log.get('data', '0x')`. -/
structure Log where
  address : String
  topics : List String
  data : Option String
  blockNumber : String
  transactionHash : String
deriving DecidableEq

/-- `"0x" + topic[-40:]`: the address recovered from an indexed topic
(lines 316-317). -/
def topicAddr (t : String) : String := "0x" ++ pyTakeRight t 40

/-- Normalisation applied by `load_arena_token_set` (lines 256-261) to each
`token_deployments.token_address` row: lowercase, strip, prepend `0x` when
missing, and keep only 42-character results (lowercased again). -/
def normalizeTokenAddress (raw : String) : Option String :=
  let a := pyStrip (pyLower raw)
  let a2 := if pyStartsWith0x a then a else "0x" ++ a
  if a2.length = 42 then some (pyLower a2) else none

/-- `load_arena_token_set` (lines 240-265): the set of normalised token
addresses loaded from the `token_deployments` table, modelled by its
membership-relevant list of elements. -/
def load_arena_token_set (rows : List String) : List String :=
  rows.filterMap normalizeTokenAddress

/-- Per-log decision of the chunk loop (lines 312-326): keep a log when it
has at least three topics, the sender or receiver address recovered from
topics 1 and 2 equals the ParaSwap address after lowercasing, and the
emitting contract address (lowercased) is in the Arena token set.  Topic
slicing cannot fail on this shallow structure, so the inner `except`
branch is unreachable. -/
def keepLog (arena_tokens : List String) (log : Log) : Bool :=
  match log.topics with
  | _ :: t1 :: t2 :: _ =>
    (pyLower (topicAddr t1) == pyLower PARASWAP_ADDRESS ||
      pyLower (topicAddr t2) == pyLower PARASWAP_ADDRESS) &&
    arena_tokens.contains (pyLower log.address)
  | _ => false

/-- The log collection performed over one chunk's `eth_getLogs` result. -/
def collect_arena_paraswap_logs (arena_tokens : List String)
    (logs : List Log) : List Log :=
  logs.filter (keepLog arena_tokens)

/-- The collection criterion as the claim phrases it: at least three
topics, the sender or receiver address recovered from topics 1 and 2
equals the ParaSwap router address case-insensitively, and the emitting
contract address is a member of the target token set loaded from the
`token_deployments` rows. -/
def specLogCollected (deploymentRows : List String) (log : Log) : Prop :=
  3 ≤ log.topics.length ∧
  (pyLower (topicAddr ((log.topics[1]?).getD "")) = pyLower PARASWAP_ADDRESS ∨
   pyLower (topicAddr ((log.topics[2]?).getD "")) = pyLower PARASWAP_ADDRESS) ∧
  pyLower log.address ∈ load_arena_token_set deploymentRows

theorem keepLog_iff (arena_tokens : List String) (log : Log) :
    keepLog arena_tokens log = true ↔
      3 ≤ log.topics.length ∧
      (pyLower (topicAddr ((log.topics[1]?).getD "")) = pyLower PARASWAP_ADDRESS ∨
       pyLower (topicAddr ((log.topics[2]?).getD "")) = pyLower PARASWAP_ADDRESS) ∧
      pyLower log.address ∈ arena_tokens := by
  rcases hts : log.topics with _ | ⟨t0, _ | ⟨t1, _ | ⟨t2, rest⟩⟩⟩ <;>
    simp [keepLog, hts, List.elem_iff]

/-- C4: a log returned by `eth_getLogs` is collected by
`scan_incremental_blocks` if and only if it has at least three topics, the
sender or receiver address recovered from topics 1 and 2 equals the
ParaSwap router address after lowercasing, and the log's emitting contract
address belongs to the target token set loaded from the
`token_deployments` table. -/
theorem c4_log_filter (deploymentRows : List String) (logs : List Log)
    (log : Log) :
    log ∈ collect_arena_paraswap_logs (load_arena_token_set deploymentRows)
        logs ↔
      log ∈ logs ∧ specLogCollected deploymentRows log := by
  simp only [collect_arena_paraswap_logs, List.mem_filter,
    keepLog_iff, specLogCollected]

/-- Membership of a block in the inclusive `eth_getLogs` block range of a
chunk `(fromBlock, toBlock)`. -/
def inChunk (c : Nat × Nat) (x : Nat) : Prop := c.1 ≤ x ∧ x ≤ c.2

instance (c : Nat × Nat) (x : Nat) : Decidable (inChunk c x) := by
  unfold inChunk; infer_instance

theorem blockChunks_head {s e : Nat} (h : s < e) :
    (blockChunks s e).head?.map Prod.fst = some s := by
  rcases hfuel : e - s with _ | n
  · omega
  · simp [blockChunks, hfuel, blockChunksAux, if_pos h]

/-- C5 (counterexample): the chunks computed for the range 0..4000 are
`[(0, 2000), (2000, 4000)]`; these are two distinct chunks whose inclusive
`eth_getLogs` ranges both contain block 2000, so the chunks are not
pairwise disjoint as the claim states. -/
theorem c5_chunks_not_disjoint_counterexample :
    blockChunks 0 4000 = [(0, 2000), (2000, 4000)] ∧
    inChunk (0, 2000) 2000 ∧ inChunk (2000, 4000) 2000 ∧
    ((0, 2000) : Nat × Nat) ≠ (2000, 4000) := by decide

/-- C5 (amended): for every start block strictly below the end block, the
chunk list is nonempty, the first chunk begins at the start block, the last
chunk ends at the end block, every chunk `(a, b)` satisfies
`a < b ≤ end` and `b - a ≤ BLOCK_CHUNK_SIZE`, each chunk after the first
begins exactly at the block where the previous chunk ends (so consecutive
chunks overlap in that single boundary block rather than being disjoint),
and every block of the range is covered by at least one chunk. -/
theorem c5_chunk_partition_amended (s e : Nat) (h : s < e) :
    blockChunks s e ≠ [] ∧
    (blockChunks s e).head?.map Prod.fst = some s ∧
    (blockChunks s e).getLast?.map Prod.snd = some e ∧
    (∀ c ∈ blockChunks s e,
      s ≤ c.1 ∧ c.1 < c.2 ∧ c.2 ≤ e ∧ c.2 - c.1 ≤ BLOCK_CHUNK_SIZE) ∧
    List.Chain' (fun a b => a.2 = b.1) (blockChunks s e) ∧
    (∀ x, s ≤ x → x ≤ e → ∃ c ∈ blockChunks s e, inChunk c x) := by
  refine ⟨?_, blockChunks_head h, blockChunksAux_last (le_refl _) h, ?_, ?_, ?_⟩
  · intro hnil
    have := blockChunks_head h
    rw [hnil] at this
    simp at this
  · intro c hc
    have := blockChunksAux_mem hc
    exact ⟨this.1, this.2.1, this.2.2.1, this.2.2.2⟩
  · exact blockChunksAux_chain _ _ _
  · intro x hx hxe
    exact blockChunksAux_cover (le_refl _) hx hxe h

/-- C5 (witness): the amended chunk-partition theorem instantiated at the
concrete range 5..4500. -/
theorem c5_chunk_partition_amended_witness :
    (5 : Nat) < 4500 ∧
    (blockChunks 5 4500 ≠ [] ∧
      (blockChunks 5 4500).head?.map Prod.fst = some 5 ∧
      (blockChunks 5 4500).getLast?.map Prod.snd = some 4500 ∧
      (∀ c ∈ blockChunks 5 4500,
        5 ≤ c.1 ∧ c.1 < c.2 ∧ c.2 ≤ 4500 ∧ c.2 - c.1 ≤ BLOCK_CHUNK_SIZE) ∧
      List.Chain' (fun a b => a.2 = b.1) (blockChunks 5 4500) ∧
      (∀ x, 5 ≤ x → x ≤ 4500 → ∃ c ∈ blockChunks 5 4500, inChunk c x)) :=
  ⟨by decide, c5_chunk_partition_amended 5 4500 (by decide)⟩

/-- C2: when the scanner resumes from last-scanned block `N`, the main
block sets the start block to `N + 1`; the first chunk then begins exactly
at `N + 1`, and every chunk `(a, b)` handed to `eth_getLogs` satisfies
`N + 1 ≤ a ≤ b`, so the inclusive range it queries contains only blocks
strictly greater than `N` — no block at or below the checkpoint is ever
re-queried. -/
theorem c2_resume_skips_scanned_blocks (N e : Nat)
    (h : incremental_start_block N < e) :
    (blockChunks (incremental_start_block N) e).head?.map Prod.fst =
      some (incremental_start_block N) ∧
    ∀ c ∈ blockChunks (incremental_start_block N) e,
      incremental_start_block N ≤ c.1 ∧ c.1 ≤ c.2 ∧
      ∀ x, inChunk c x → N < x := by
  refine ⟨blockChunks_head h, ?_⟩
  intro c hc
  have hm := blockChunksAux_mem hc
  have h1 : incremental_start_block N ≤ c.1 := hm.1
  refine ⟨h1, le_of_lt hm.2.1, ?_⟩
  intro x hx
  have : incremental_start_block N ≤ x := le_trans h1 hx.1
  simp only [incremental_start_block] at this
  omega

/-- C2 (witness): the resume theorem instantiated at checkpoint block 100
with chain head 4200. -/
theorem c2_resume_skips_scanned_blocks_witness :
    incremental_start_block 100 < 4200 ∧
    ((blockChunks (incremental_start_block 100) 4200).head?.map Prod.fst =
        some (incremental_start_block 100) ∧
      ∀ c ∈ blockChunks (incremental_start_block 100) 4200,
        incremental_start_block 100 ≤ c.1 ∧ c.1 ≤ c.2 ∧
        ∀ x, inChunk c x → 100 < x) :=
  ⟨by decide, c2_resume_skips_scanned_blocks 100 4200 (by decide)⟩

/-! ### Static block-range partitioning

`SimpleMultiScanner.scan_parallel` (src/multi.py, lines 373-396) and
`SmartParaswapBackfiller.run_parallel_backfill`
(src/scripts/paraswap_backfill.py, lines 429-450) both compute
`blocks_per_worker = total_blocks // NUM` with `total_blocks =
end_block - start_block + 1` and then assign `(current_start, worker_end)`
pairs in a loop.  Python integers and floor division are modelled by `Int`
and `Int.fdiv`.  In `multi.py` the last worker's end is forced to
`end_block`; in `paraswap_backfill.py` every worker's end is
`min(current_start + blocks_per_worker - 1, end_block)` — including the
last one. -/

def scanParallelAux (bpw e : Int) : Int → Nat → List (Int × Int)
  | _, 0 => []
  | cs, 1 => [(cs, e)]
  | cs, n + 2 => (cs, cs + bpw - 1) :: scanParallelAux bpw e (cs + bpw) (n + 1)

def scan_parallel_assignments (s e : Int) (w : Nat) : List (Int × Int) :=
  scanParallelAux ((e - s + 1).fdiv w) e s w

def backfillAux (bpw e : Int) : Int → Nat → List (Int × Int)
  | _, 0 => []
  | cs, n + 1 =>
    (cs, min (cs + bpw - 1) e) ::
      backfillAux bpw e (min (cs + bpw - 1) e + 1) n

def run_parallel_backfill_assignments (s e : Int) (w : Nat) :
    List (Int × Int) :=
  backfillAux ((e - s + 1).fdiv w) e s w

/-- A block is assigned to a worker range `(range_start, range_end)` when
it lies in the inclusive range, exactly as `process_block_range` iterates
`range(start_block, end_block + 1)`. -/
def inRange (r : Int × Int) (x : Int) : Prop := r.1 ≤ x ∧ x ≤ r.2

instance (r : Int × Int) (x : Int) : Decidable (inRange r x) := by
  unfold inRange; infer_instance

theorem scanParallelAux_lb {bpw e : Int} (hbpw : 0 ≤ bpw) :
    ∀ (n : Nat) (cs : Int), ∀ r ∈ scanParallelAux bpw e cs n, cs ≤ r.1 := by
  intro n
  induction n with
  | zero => intro cs r hr; simp [scanParallelAux] at hr
  | succ m ih =>
    intro cs r hr
    match m, hr with
    | 0, hr =>
      simp only [scanParallelAux, List.mem_singleton] at hr
      rw [hr]
    | k + 1, hr =>
      rcases List.mem_cons.mp hr with rfl | hr'
      · exact le_refl _
      · have := ih (cs + bpw) r hr'
        omega

theorem scanParallelAux_disjoint {bpw e : Int} (hbpw : 0 ≤ bpw) :
    ∀ (n : Nat) (cs : Int),
      List.Pairwise (fun r r' => ∀ x, inRange r x → ¬inRange r' x)
        (scanParallelAux bpw e cs n) := by
  intro n
  induction n with
  | zero => intro cs; simp [scanParallelAux]
  | succ m ih =>
    intro cs
    match m with
    | 0 => simp [scanParallelAux]
    | k + 1 =>
      refine List.Pairwise.cons ?_ (ih (cs + bpw))
      intro r hr x hx hx'
      have hlb := scanParallelAux_lb hbpw _ (cs + bpw) r hr
      rcases hx with ⟨_, hx2⟩
      rcases hx' with ⟨hx1', _⟩
      simp only at hx2
      omega

theorem scanParallelAux_cover {bpw e : Int} (hbpw : 0 ≤ bpw) :
    ∀ (n : Nat) (cs : Int), cs + n * bpw ≤ e + 1 →
      ∀ x, (∃ r ∈ scanParallelAux bpw e cs (n + 1), inRange r x) ↔
        cs ≤ x ∧ x ≤ e := by
  intro n
  induction n with
  | zero =>
    intro cs _ x
    simp [scanParallelAux, inRange]
  | succ m ih =>
    intro cs hinv x
    have hm : (0 : Int) ≤ (m : Int) * bpw :=
      mul_nonneg (Int.natCast_nonneg m) hbpw
    have hinv' : cs + ((m : Int) * bpw + bpw) ≤ e + 1 := by
      have : ((m : Nat) + 1 : Nat) * bpw = (m : Int) * bpw + bpw := by
        push_cast; ring
      rw [this] at hinv
      exact hinv
    have hrec := ih (cs + bpw) (by linarith) x
    simp only [scanParallelAux, List.mem_cons, inRange] at hrec ⊢
    constructor
    · rintro ⟨r, hr | hr, hx⟩
      · rcases hr with rfl
        simp only at hx
        exact ⟨hx.1, by linarith [hx.2]⟩
      · have := hrec.mp ⟨r, hr, hx⟩
        exact ⟨by linarith [this.1], this.2⟩
    · rintro ⟨hcx, hxe⟩
      by_cases hsplit : x ≤ cs + bpw - 1
      · exact ⟨(cs, cs + bpw - 1), Or.inl rfl, hcx, hsplit⟩
      · obtain ⟨r, hr, hx⟩ := hrec.mpr ⟨by omega, hxe⟩
        exact ⟨r, Or.inr hr, hx⟩

theorem backfillAux_lb {bpw e : Int} (hbpw : 0 ≤ bpw) :
    ∀ (n : Nat) (cs : Int), cs ≤ e + 1 →
      ∀ r ∈ backfillAux bpw e cs n, cs ≤ r.1 := by
  intro n
  induction n with
  | zero => intro cs _ r hr; simp [backfillAux] at hr
  | succ m ih =>
    intro cs hcs r hr
    rcases List.mem_cons.mp hr with rfl | hr'
    · exact le_refl _
    · have h1 : cs ≤ min (cs + bpw - 1) e + 1 := by omega
      have h2 : min (cs + bpw - 1) e + 1 ≤ e + 1 := by omega
      exact le_trans h1 (ih _ h2 r hr')

theorem backfillAux_disjoint {bpw e : Int} (hbpw : 0 ≤ bpw) :
    ∀ (n : Nat) (cs : Int), cs ≤ e + 1 →
      List.Pairwise (fun r r' => ∀ x, inRange r x → ¬inRange r' x)
        (backfillAux bpw e cs n) := by
  intro n
  induction n with
  | zero => intro cs _; simp [backfillAux]
  | succ m ih =>
    intro cs hcs
    refine List.Pairwise.cons ?_ (ih _ (by omega))
    intro r hr x hx hx'
    have hlb := backfillAux_lb hbpw m (min (cs + bpw - 1) e + 1) (by omega) r hr
    rcases hx with ⟨_, hx2⟩
    rcases hx' with ⟨hx1', _⟩
    simp only at hx2
    omega

theorem backfillAux_cover {bpw e : Int} (hbpw : 0 ≤ bpw) :
    ∀ (n : Nat) (cs : Int), cs ≤ e + 1 →
      ∀ x, (∃ r ∈ backfillAux bpw e cs n, inRange r x) ↔
        cs ≤ x ∧ x ≤ min e (cs + n * bpw - 1) := by
  intro n
  induction n with
  | zero =>
    intro cs hcs x
    simp only [backfillAux, List.not_mem_nil, false_and, exists_false,
      false_iff, not_and, not_le, Nat.cast_zero, zero_mul]
    intro hx
    omega
  | succ m ih =>
    intro cs hcs x
    have hm : (0 : Int) ≤ (m : Int) * bpw :=
      mul_nonneg (Int.natCast_nonneg m) hbpw
    have hrw : ((m : Nat) + 1 : Nat) * bpw = (m : Int) * bpw + bpw := by
      push_cast; ring
    have hrec := ih (min (cs + bpw - 1) e + 1) (by omega) x
    simp only [backfillAux, List.mem_cons, inRange] at hrec ⊢
    rw [hrw]
    constructor
    · rintro ⟨r, hr | hr, hx⟩
      · rcases hr with rfl
        simp only at hx
        omega
      · have := hrec.mp ⟨r, hr, hx⟩
        omega
    · intro hx
      by_cases hsplit : x ≤ min (cs + bpw - 1) e
      · exact ⟨(cs, min (cs + bpw - 1) e), Or.inl rfl, hx.1, hsplit⟩
      · obtain ⟨r, hr, hxr⟩ := hrec.mpr (by omega)
        exact ⟨r, Or.inr hr, hxr⟩

/-- C7 (counterexample): for the scan range 0..10 with 3 workers,
`run_parallel_backfill` statically assigns the ranges
`[(0, 2), (3, 5), (6, 8)]` (`blocks_per_worker = 11 // 3 = 3` and every
worker — the last included — is capped at
`current_start + blocks_per_worker - 1`): block 9 lies in the scan range
but in no worker's range, so the union of the per-worker ranges is not the
full range and block 9 is assigned to no worker. -/
theorem c7_backfill_gap_counterexample :
    run_parallel_backfill_assignments 0 10 3 = [(0, 2), (3, 5), (6, 8)] ∧
    (∀ r ∈ run_parallel_backfill_assignments 0 10 3, ¬inRange r 9) ∧
    ((0 : Int) ≤ 9 ∧ (9 : Int) ≤ 10) := by decide

/-- C7 (amended): for every scan range `s ≤ e` and positive worker count,
`multi.py`'s `scan_parallel` ranges are pairwise disjoint and their union
is exactly the full block range, so there every block is assigned to
exactly one worker; `paraswap_backfill.py`'s `run_parallel_backfill`
ranges are pairwise disjoint but their union is only the initial segment
up to `s + w * ((e - s + 1) fdiv w) - 1` (capped at `e`): when the worker
count does not divide the total block count, the final blocks of the range
are assigned to no worker. -/
theorem c7_partition_amended (s e : Int) (w : Nat) (hse : s ≤ e)
    (hw : 0 < w) :
    (∀ x, (∃ r ∈ scan_parallel_assignments s e w, inRange r x) ↔
      s ≤ x ∧ x ≤ e) ∧
    List.Pairwise (fun r r' => ∀ x, inRange r x → ¬inRange r' x)
      (scan_parallel_assignments s e w) ∧
    (∀ x, (∃ r ∈ run_parallel_backfill_assignments s e w, inRange r x) ↔
      s ≤ x ∧ x ≤ min e (s + w * ((e - s + 1).fdiv w) - 1)) ∧
    List.Pairwise (fun r r' => ∀ x, inRange r x → ¬inRange r' x)
      (run_parallel_backfill_assignments s e w) := by
  obtain ⟨n, rfl⟩ : ∃ n, w = n + 1 := ⟨w - 1, by omega⟩
  have hT : (0 : Int) ≤ e - s + 1 := by omega
  have hcast : ((n + 1 : Nat) : Int) = (n : Int) + 1 := by push_cast; ring
  have hWpos : (0 : Int) < ((n + 1 : Nat) : Int) := by
    rw [hcast]; positivity
  have hbpw : 0 ≤ (e - s + 1).fdiv ((n + 1 : Nat) : Int) :=
    Int.fdiv_nonneg hT (le_of_lt hWpos)
  have h1 := Int.fdiv_add_fmod (e - s + 1) ((n + 1 : Nat) : Int)
  have h2 := Int.fmod_nonneg hT (le_of_lt hWpos)
  have hrel : ((n + 1 : Nat) : Int) * ((e - s + 1).fdiv ((n + 1 : Nat) : Int)) =
      (n : Int) * ((e - s + 1).fdiv ((n + 1 : Nat) : Int)) +
        (e - s + 1).fdiv ((n + 1 : Nat) : Int) := by
    rw [hcast]; ring
  have hinv : s + (n : Int) * ((e - s + 1).fdiv ((n + 1 : Nat) : Int)) ≤
      e + 1 := by
    have hle : ((n + 1 : Nat) : Int) *
        ((e - s + 1).fdiv ((n + 1 : Nat) : Int)) ≤ e - s + 1 := by
      linarith
    linarith [hrel, hbpw]
  refine ⟨?_, ?_, ?_, ?_⟩
  · intro x
    exact scanParallelAux_cover hbpw n s hinv x
  · exact scanParallelAux_disjoint hbpw (n + 1) s
  · intro x
    exact backfillAux_cover hbpw (n + 1) s (by omega) x
  · exact backfillAux_disjoint hbpw (n + 1) s (by omega)

/-- C7 (witness): the amended partition theorem instantiated at the scan
range 2..7 with 2 workers. -/
theorem c7_partition_amended_witness :
    ((2 : Int) ≤ 7 ∧ 0 < 2) ∧
    ((∀ x, (∃ r ∈ scan_parallel_assignments 2 7 2, inRange r x) ↔
        2 ≤ x ∧ x ≤ 7) ∧
      List.Pairwise (fun r r' => ∀ x, inRange r x → ¬inRange r' x)
        (scan_parallel_assignments 2 7 2) ∧
      (∀ x, (∃ r ∈ run_parallel_backfill_assignments 2 7 2, inRange r x) ↔
        2 ≤ x ∧ x ≤ min 7 (2 + 2 * ((7 - 2 + 1 : Int).fdiv 2) - 1)) ∧
      List.Pairwise (fun r r' => ∀ x, inRange r x → ¬inRange r' x)
        (run_parallel_backfill_assignments 2 7 2)) :=
  ⟨⟨by decide, by decide⟩, c7_partition_amended 2 7 2 (by decide) (by decide)⟩

/-! ### Transaction processing (src/paraswap-incremental.py, lines 349-425) -/

/-- Result of `eth_getTransactionByHash`; the code reads only
`tx_data.get('from', '')`, so the model keeps just that optional field.
`none` at the call site covers both a null result and a caught RPC
exception — either way the transaction is skipped (lines 376-377, 418-420). -/
structure TxData where
  fromAddr : Option String
deriving DecidableEq

/-- One dict appended to `user_transactions` (lines 402-412). -/
structure UserTxRow where
  block_number : Int
  tx_hash : String
  token_address : String
  real_user : String
  counterparty : String
  from_address : String
  to_address : String
  amount : Int
  label : String
deriving DecidableEq

/-- Amount decoding (lines 399-400): `amount_hex = log.get('data', '0x')`
and `int(amount_hex, 16) if amount_hex and amount_hex != '0x' else 0`.
`none` models the `ValueError` the per-log handler catches. -/
def decodeAmount (data : Option String) : Option Int :=
  let amount_hex := data.getD "0x"
  if amount_hex ≠ "" ∧ amount_hex ≠ "0x" then pyIntHex amount_hex
  else some 0

/-- The per-log body of the per-transaction loop (lines 382-416):
`none` when the log produces no row, either because ParaSwap is on neither
side (the `else: continue`) or because an index/parse error is caught by
the inner `except` (fewer than three topics, unparsable `data` or
`blockNumber`). -/
def processLog (real_user : String) (tx_hash : String) (log : Log) :
    Option UserTxRow :=
  match log.topics with
  | _ :: t1 :: t2 :: _ =>
    let from_addr := topicAddr t1
    let to_addr := topicAddr t2
    let pick : Option (String × String) :=
      if pyLower from_addr = pyLower PARASWAP_ADDRESS then
        some ("BUY", pyLower to_addr)
      else if pyLower to_addr = pyLower PARASWAP_ADDRESS then
        some ("SELL", pyLower from_addr)
      else none
    pick.bind fun lc =>
      (decodeAmount log.data).bind fun amount =>
        (pyIntHex log.blockNumber).bind fun bn =>
          some { block_number := bn, tx_hash := tx_hash,
                 token_address := pyLower log.address,
                 real_user := real_user, counterparty := lc.2,
                 from_address := pyLower from_addr,
                 to_address := pyLower to_addr, amount := amount,
                 label := lc.1 }
  | _ => none

/-- One step of `logs_by_tx[log['transactionHash']].append(log)` over a
`defaultdict` kept in insertion order (lines 359-361). -/
def addLogToGroups (gs : List (String × List Log)) (log : Log) :
    List (String × List Log) :=
  if gs.any (fun g => g.1 == log.transactionHash) then
    gs.map fun g =>
      if g.1 == log.transactionHash then (g.1, g.2 ++ [log]) else g
  else gs ++ [(log.transactionHash, [log])]

def groupLogsByTx (logs : List Log) : List (String × List Log) :=
  logs.foldl addLogToGroups []

/-- `process_transactions_and_get_users` (lines 349-425) with the RPC
client abstracted as a function from transaction hash to optional
transaction data; the `tx_cache` is semantically transparent because the
abstracted client is deterministic. -/
def process_transactions_and_get_users (rpc : String → Option TxData)
    (logs : List Log) : List UserTxRow :=
  (groupLogsByTx logs).flatMap fun g =>
    match rpc g.1 with
    | none => []
    | some tx_data =>
      g.2.filterMap
        (processLog (pyLower (tx_data.fromAddr.getD "")) g.1)

theorem mem_addLogToGroups_sound {gs : List (String × List Log)}
    {x : Log} {h : String} {ls : List Log} {l : Log}
    (hmem : (h, ls) ∈ addLogToGroups gs x) (hl : l ∈ ls) :
    (∃ ls0, (h, ls0) ∈ gs ∧ l ∈ ls0) ∨ (l = x ∧ x.transactionHash = h) := by
  unfold addLogToGroups at hmem
  by_cases hany : gs.any (fun g => g.1 == x.transactionHash)
  · rw [if_pos hany] at hmem
    obtain ⟨g, hg, hgeq⟩ := List.mem_map.mp hmem
    by_cases hghit : g.1 == x.transactionHash
    · rw [if_pos hghit] at hgeq
      injection hgeq with h1 h2
      rw [← h2] at hl
      rcases List.mem_append.mp hl with hl' | hl'
      · exact Or.inl ⟨g.2, by rw [← h1]; exact hg, hl'⟩
      · have hlx : l = x := List.mem_singleton.mp hl'
        refine Or.inr ⟨hlx, ?_⟩
        have hgx : g.1 = x.transactionHash := eq_of_beq hghit
        rw [← hgx]
        exact h1
    · rw [if_neg hghit] at hgeq
      exact Or.inl ⟨ls, by rw [hgeq] at hg; exact hg, hl⟩
  · rw [if_neg hany] at hmem
    rcases List.mem_append.mp hmem with hm | hm
    · exact Or.inl ⟨ls, hm, hl⟩
    · have heq := List.mem_singleton.mp hm
      injection heq with h1 h2
      rw [h2] at hl
      exact Or.inr ⟨List.mem_singleton.mp hl, h1.symm⟩

theorem groupLogsByTx_sound_aux {h : String} {ls : List Log} {l : Log} :
    ∀ (logs : List Log) (gs : List (String × List Log)),
      (h, ls) ∈ logs.foldl addLogToGroups gs → l ∈ ls →
      (∃ ls0, (h, ls0) ∈ gs ∧ l ∈ ls0) ∨
        (l ∈ logs ∧ l.transactionHash = h) := by
  intro logs
  induction logs with
  | nil => intro gs hmem hl; exact Or.inl ⟨ls, hmem, hl⟩
  | cons x rest ih =>
    intro gs hmem hl
    rcases ih (addLogToGroups gs x) hmem hl with ⟨ls0, hls0, hl0⟩ | ⟨hlr, hlh⟩
    · rcases mem_addLogToGroups_sound hls0 hl0 with hc | ⟨rfl, hxh⟩
      · exact Or.inl hc
      · exact Or.inr ⟨List.mem_cons_self _ _, hxh⟩
    · exact Or.inr ⟨List.mem_cons_of_mem _ hlr, hlh⟩

/-- Every log in a group of `groupLogsByTx` comes from the input list and
carries the group's transaction hash. -/
theorem groupLogsByTx_sound {logs : List Log} {h : String} {ls : List Log}
    (hmem : (h, ls) ∈ groupLogsByTx logs) {l : Log} (hl : l ∈ ls) :
    l ∈ logs ∧ l.transactionHash = h := by
  rcases groupLogsByTx_sound_aux logs [] hmem hl with ⟨ls0, hls0, _⟩ | hr
  · simp at hls0
  · exact hr

theorem addLogToGroups_self (gs : List (String × List Log)) (x : Log) :
    ∃ ls, (x.transactionHash, ls) ∈ addLogToGroups gs x ∧ x ∈ ls := by
  unfold addLogToGroups
  by_cases hany : gs.any (fun g => g.1 == x.transactionHash)
  · rw [if_pos hany]
    obtain ⟨g, hg, hbeq⟩ := List.any_eq_true.mp hany
    have hgx : g.1 = x.transactionHash := eq_of_beq hbeq
    refine ⟨g.2 ++ [x], ?_,
      List.mem_append.mpr (Or.inr (List.mem_singleton.mpr rfl))⟩
    have hmap : (fun g : String × List Log =>
        if g.1 == x.transactionHash then (g.1, g.2 ++ [x]) else g) g =
        (x.transactionHash, g.2 ++ [x]) := by
      simp [hgx]
    exact List.mem_map.mpr ⟨g, hg, hmap⟩
  · rw [if_neg hany]
    exact ⟨[x], List.mem_append.mpr (Or.inr (List.mem_singleton.mpr rfl)),
      List.mem_singleton.mpr rfl⟩

theorem addLogToGroups_keeps {gs : List (String × List Log)} {x : Log}
    {k : String} {ls : List Log} {l : Log} (hmem : (k, ls) ∈ gs)
    (hl : l ∈ ls) :
    ∃ ls', (k, ls') ∈ addLogToGroups gs x ∧ l ∈ ls' := by
  unfold addLogToGroups
  by_cases hany : gs.any (fun g => g.1 == x.transactionHash)
  · rw [if_pos hany]
    by_cases hk : (k == x.transactionHash : Bool)
    · refine ⟨ls ++ [x], List.mem_map.mpr ⟨(k, ls), hmem, ?_⟩,
        List.mem_append.mpr (Or.inl hl)⟩
      simp only [hk, if_true]
    · refine ⟨ls, List.mem_map.mpr ⟨(k, ls), hmem, ?_⟩, hl⟩
      simp [hk]
  · rw [if_neg hany]
    exact ⟨ls, List.mem_append.mpr (Or.inl hmem), hl⟩

theorem groupLogsByTx_complete_aux {l : Log} :
    ∀ (logs : List Log) (gs : List (String × List Log)),
      (l ∈ logs ∨ ∃ ls, (l.transactionHash, ls) ∈ gs ∧ l ∈ ls) →
      ∃ ls, (l.transactionHash, ls) ∈ logs.foldl addLogToGroups gs ∧
        l ∈ ls := by
  intro logs
  induction logs with
  | nil =>
    intro gs hyp
    rcases hyp with hl | hyp
    · simp at hl
    · exact hyp
  | cons x rest ih =>
    intro gs hyp
    apply ih (addLogToGroups gs x)
    rcases hyp with hl | ⟨ls, hls, hlmem⟩
    · rcases List.mem_cons.mp hl with rfl | hl'
      · exact Or.inr (addLogToGroups_self gs l)
      · exact Or.inl hl'
    · exact Or.inr (addLogToGroups_keeps hls hlmem)

/-- Every input log lands in the group labelled with its transaction
hash. -/
theorem groupLogsByTx_complete {logs : List Log} {l : Log} (hl : l ∈ logs) :
    ∃ ls, (l.transactionHash, ls) ∈ groupLogsByTx logs ∧ l ∈ ls :=
  groupLogsByTx_complete_aux logs [] (Or.inl hl)

/-- Characterisation of the rows produced by
`process_transactions_and_get_users`: a row is produced exactly when some
input log, under the `from` field of its fetched transaction, decodes to
it. -/
theorem mem_process_transactions_iff (rpc : String → Option TxData)
    (logs : List Log) (row : UserTxRow) :
    row ∈ process_transactions_and_get_users rpc logs ↔
      ∃ log ∈ logs, ∃ tx, rpc log.transactionHash = some tx ∧
        processLog (pyLower (tx.fromAddr.getD "")) log.transactionHash log =
          some row := by
  unfold process_transactions_and_get_users
  rw [List.mem_flatMap]
  constructor
  · rintro ⟨g, hg, hrow⟩
    rcases hrpc : rpc g.1 with _ | tx
    · rw [hrpc] at hrow; simp at hrow
    · rw [hrpc] at hrow
      obtain ⟨l, hl, hproc⟩ := List.mem_filterMap.mp hrow
      obtain ⟨hlin, hlh⟩ := groupLogsByTx_sound (by exact hg) hl
      refine ⟨l, hlin, tx, ?_, ?_⟩
      · rw [hlh]; exact hrpc
      · rw [hlh]; exact hproc
  · rintro ⟨log, hlog, tx, hrpc, hproc⟩
    obtain ⟨ls, hls, hlmem⟩ := groupLogsByTx_complete hlog
    refine ⟨(log.transactionHash, ls), hls, ?_⟩
    rw [hrpc]
    exact List.mem_filterMap.mpr ⟨log, hlmem, hproc⟩

/-- Inversion of `processLog`: what a produced row must look like. -/
theorem processLog_some {u h : String} {log : Log} {row : UserTxRow}
    (hp : processLog u h log = some row) :
    ∃ t0 t1 t2 rest, log.topics = t0 :: t1 :: t2 :: rest ∧
      ∃ amount bn, decodeAmount log.data = some amount ∧
        pyIntHex log.blockNumber = some bn ∧
        ((pyLower (topicAddr t1) = pyLower PARASWAP_ADDRESS ∧
            row = { block_number := bn, tx_hash := h,
                    token_address := pyLower log.address, real_user := u,
                    counterparty := pyLower (topicAddr t2),
                    from_address := pyLower (topicAddr t1),
                    to_address := pyLower (topicAddr t2),
                    amount := amount, label := "BUY" }) ∨
          (pyLower (topicAddr t1) ≠ pyLower PARASWAP_ADDRESS ∧
            pyLower (topicAddr t2) = pyLower PARASWAP_ADDRESS ∧
            row = { block_number := bn, tx_hash := h,
                    token_address := pyLower log.address, real_user := u,
                    counterparty := pyLower (topicAddr t1),
                    from_address := pyLower (topicAddr t1),
                    to_address := pyLower (topicAddr t2),
                    amount := amount, label := "SELL" })) := by
  rcases hts : log.topics with _ | ⟨t0, _ | ⟨t1, _ | ⟨t2, rest⟩⟩⟩ <;>
    rw [processLog, hts] at hp
  · exact absurd hp (by simp)
  · exact absurd hp (by simp)
  · exact absurd hp (by simp)
  · refine ⟨t0, t1, t2, rest, rfl, ?_⟩
    dsimp only at hp
    by_cases h1 : pyLower (topicAddr t1) = pyLower PARASWAP_ADDRESS
    · rw [if_pos h1] at hp
      rcases hA : decodeAmount log.data with _ | amount <;> rw [hA] at hp
      · exact absurd hp (by simp)
      rcases hB : pyIntHex log.blockNumber with _ | bn <;> rw [hB] at hp
      · exact absurd hp (by simp)
      refine ⟨amount, bn, rfl, rfl, Or.inl ⟨h1, ?_⟩⟩
      simp only [Option.some_bind, Option.bind_some] at hp
      exact (Option.some_inj.mp hp).symm
    · rw [if_neg h1] at hp
      by_cases h2 : pyLower (topicAddr t2) = pyLower PARASWAP_ADDRESS
      · rw [if_pos h2] at hp
        rcases hA : decodeAmount log.data with _ | amount <;> rw [hA] at hp
        · exact absurd hp (by simp)
        rcases hB : pyIntHex log.blockNumber with _ | bn <;> rw [hB] at hp
        · exact absurd hp (by simp)
        refine ⟨amount, bn, rfl, rfl, Or.inr ⟨h1, h2, ?_⟩⟩
        simp only [Option.some_bind, Option.bind_some] at hp
        exact (Option.some_inj.mp hp).symm
      · rw [if_neg h2] at hp
        exact absurd hp (by simp)

/-- A log with ParaSwap on neither recovered side decodes to no row. -/
theorem processLog_none_of_no_router {log : Log}
    (hno : ∀ t0 t1 t2 rest, log.topics = t0 :: t1 :: t2 :: rest →
      pyLower (topicAddr t1) ≠ pyLower PARASWAP_ADDRESS ∧
      pyLower (topicAddr t2) ≠ pyLower PARASWAP_ADDRESS)
    (u h : String) : processLog u h log = none := by
  rcases hts : log.topics with _ | ⟨t0, _ | ⟨t1, _ | ⟨t2, rest⟩⟩⟩ <;>
    rw [processLog, hts]
  obtain ⟨h1, h2⟩ := hno t0 t1 t2 rest hts
  dsimp only
  rw [if_neg h1, if_neg h2]
  rfl

/-! ### Concrete inputs used by counterexamples and witnesses -/

/-- A Transfer topic whose last 40 hex characters are the ParaSwap router
address. -/
def routerTopic : String :=
  "0x0000000000000000000000006a000f20005980200259b80c5102003040001068"

def userTopic : String :=
  "0x0000000000000000000000001111111111111111111111111111111111111111"

/-- A Transfer log whose `from` and `to` topics both name the router. -/
def bothRouterLog : Log :=
  { address := "0xToKenA",
    topics := [TRANSFER_EVENT_SIG, routerTopic, routerTopic],
    data := some "0x", blockNumber := "0x1", transactionHash := "0xtxboth" }

def rpcBoth : String → Option TxData :=
  fun h => if h = "0xtxboth" then some ⟨some "0xUserA"⟩ else none

def buyLog : Log :=
  { address := "0xToKenA",
    topics := [TRANSFER_EVENT_SIG, routerTopic, userTopic],
    data := some "0xff", blockNumber := "0x2", transactionHash := "0xtxbuy" }

def rpcBuy : String → Option TxData :=
  fun h => if h = "0xtxbuy" then some ⟨some "0xUserB"⟩ else none

def buyRow : UserTxRow :=
  { block_number := 2, tx_hash := "0xtxbuy", token_address := "0xtokena",
    real_user := "0xuserb",
    counterparty := "0x1111111111111111111111111111111111111111",
    from_address := PARASWAP_ADDRESS,
    to_address := "0x1111111111111111111111111111111111111111",
    amount := 255, label := "BUY" }

/-- C3 (counterexample): on a Transfer log whose `from` and `to` topics
both name the ParaSwap router, the code labels the row `BUY` with the
router itself as counterparty, although the to-address is the router —
the claim's "label is SELL exactly when the to-address is the router" and
"counterparty equals the non-router side" both fail on this row. -/
theorem c3_both_router_counterexample :
    process_transactions_and_get_users rpcBoth [bothRouterLog] =
      [{ block_number := 1, tx_hash := "0xtxboth",
         token_address := "0xtokena", real_user := "0xusera",
         counterparty := PARASWAP_ADDRESS,
         from_address := PARASWAP_ADDRESS, to_address := PARASWAP_ADDRESS,
         amount := 0, label := "BUY" }] ∧
    pyLower (topicAddr routerTopic) = pyLower PARASWAP_ADDRESS ∧
    ("BUY" : String) ≠ "SELL" := by decide

/-- C3 (amended): every row produced by
`process_transactions_and_get_users` comes from an input log and the
transaction fetched for that log's hash; its `real_user` is the lowercased
`from` field of that transaction; its label is `BUY` exactly when the
from-side recovered from topic 1 is the router (counterparty then being
the lowercased to-side), and `SELL` exactly when the to-side is the router
and the from-side is not (counterparty then being the lowercased
from-side); a log with the router on neither side produces no row. -/
theorem c3_row_decoding_amended (rpc : String → Option TxData)
    (logs : List Log) :
    (∀ row ∈ process_transactions_and_get_users rpc logs,
      ∃ log ∈ logs, ∃ tx, rpc log.transactionHash = some tx ∧
        row.tx_hash = log.transactionHash ∧
        row.real_user = pyLower (tx.fromAddr.getD "") ∧
        ∃ t0 t1 t2 rest, log.topics = t0 :: t1 :: t2 :: rest ∧
          ((row.label = "BUY" ∧
              pyLower (topicAddr t1) = pyLower PARASWAP_ADDRESS ∧
              row.counterparty = pyLower (topicAddr t2)) ∨
            (row.label = "SELL" ∧
              pyLower (topicAddr t1) ≠ pyLower PARASWAP_ADDRESS ∧
              pyLower (topicAddr t2) = pyLower PARASWAP_ADDRESS ∧
              row.counterparty = pyLower (topicAddr t1)))) ∧
    (∀ log : Log,
      (∀ t0 t1 t2 rest, log.topics = t0 :: t1 :: t2 :: rest →
        pyLower (topicAddr t1) ≠ pyLower PARASWAP_ADDRESS ∧
        pyLower (topicAddr t2) ≠ pyLower PARASWAP_ADDRESS) →
      ∀ u h, processLog u h log = none) := by
  constructor
  · intro row hrow
    obtain ⟨log, hlog, tx, hrpc, hproc⟩ :=
      (mem_process_transactions_iff rpc logs row).mp hrow
    obtain ⟨t0, t1, t2, rest, hts, amount, bn, _, _, hcase⟩ :=
      processLog_some hproc
    refine ⟨log, hlog, tx, hrpc, ?_, ?_, t0, t1, t2, rest, hts, ?_⟩
    · rcases hcase with ⟨_, rfl⟩ | ⟨_, _, rfl⟩ <;> rfl
    · rcases hcase with ⟨_, rfl⟩ | ⟨_, _, rfl⟩ <;> rfl
    · rcases hcase with ⟨h1, rfl⟩ | ⟨h1, h2, rfl⟩
      · exact Or.inl ⟨rfl, h1, rfl⟩
      · exact Or.inr ⟨rfl, h1, h2, rfl⟩
  · intro log hno u h
    exact processLog_none_of_no_router hno u h

/-- C3 (witness): the amended decoding theorem instantiated on a concrete
BUY transfer. -/
theorem c3_row_decoding_amended_witness :
    buyRow ∈ process_transactions_and_get_users rpcBuy [buyLog] ∧
    (∃ log ∈ [buyLog], ∃ tx, rpcBuy log.transactionHash = some tx ∧
      buyRow.tx_hash = log.transactionHash ∧
      buyRow.real_user = pyLower (tx.fromAddr.getD "") ∧
      ∃ t0 t1 t2 rest, log.topics = t0 :: t1 :: t2 :: rest ∧
        ((buyRow.label = "BUY" ∧
            pyLower (topicAddr t1) = pyLower PARASWAP_ADDRESS ∧
            buyRow.counterparty = pyLower (topicAddr t2)) ∨
          (buyRow.label = "SELL" ∧
            pyLower (topicAddr t1) ≠ pyLower PARASWAP_ADDRESS ∧
            pyLower (topicAddr t2) = pyLower PARASWAP_ADDRESS ∧
            buyRow.counterparty = pyLower (topicAddr t1)))) :=
  ⟨by decide,
    (c3_row_decoding_amended rpcBuy [buyLog]).1 buyRow (by decide)⟩

/-- Whether the stripped data string begins with a minus sign — the one
way Python's `int(s, 16)` can return a negative value. -/
def dataStartsWithMinus (s : String) : Bool :=
  match (pyStrip s).toList with
  | '-' :: _ => true
  | _ => false

theorem pyIntHex_nonneg {s : String} {v : Int}
    (hm : dataStartsWithMinus s = false) (hp : pyIntHex s = some v) :
    0 ≤ v := by
  unfold pyIntHex at hp
  split at hp
  · split at hp
    · rw [← Option.some_inj.mp hp]
      exact Int.natCast_nonneg _
    · exact absurd hp (by simp)
  · rename_i cs heq
    unfold dataStartsWithMinus at hm
    rw [heq] at hm
    simp at hm
  · split at hp
    · rw [← Option.some_inj.mp hp]
      exact Int.natCast_nonneg _
    · exact absurd hp (by simp)

theorem decodeAmount_zero {data : Option String}
    (h : data = none ∨ data = some "" ∨ data = some "0x") :
    decodeAmount data = some 0 := by
  rcases h with rfl | rfl | rfl <;> rfl

theorem decodeAmount_nonneg {data : Option String} {v : Int}
    (h : ∀ s, data = some s → dataStartsWithMinus s = false)
    (hd : decodeAmount data = some v) : 0 ≤ v := by
  rcases data with _ | s
  · rw [show decodeAmount none = some 0 from rfl] at hd
    rw [← Option.some_inj.mp hd]
  · unfold decodeAmount at hd
    simp only [Option.getD_some] at hd
    by_cases hc : s ≠ "" ∧ s ≠ "0x"
    · rw [if_pos hc] at hd
      exact pyIntHex_nonneg (h s rfl) hd
    · rw [if_neg hc] at hd
      rw [← Option.some_inj.mp hd]

/-- A log whose `data` is present, not `''`/`'0x'`, and not parsable as a
hexadecimal integer decodes to no row, whatever the sides are. -/
theorem processLog_none_of_bad_data {log : Log} {s : String}
    (hdata : log.data = some s) (hs1 : s ≠ "") (hs2 : s ≠ "0x")
    (hbad : pyIntHex s = none) (u h : String) :
    processLog u h log = none := by
  have hda : decodeAmount log.data = none := by
    unfold decodeAmount
    rw [hdata]
    simp only [Option.getD_some]
    rw [if_pos ⟨hs1, hs2⟩]
    exact hbad
  rcases hts : log.topics with _ | ⟨t0, _ | ⟨t1, _ | ⟨t2, rest⟩⟩⟩ <;>
    rw [processLog, hts]
  dsimp only
  rw [hda]
  by_cases h1 : pyLower (topicAddr t1) = pyLower PARASWAP_ADDRESS
  · rw [if_pos h1]; rfl
  · rw [if_neg h1]
    by_cases h2 : pyLower (topicAddr t2) = pyLower PARASWAP_ADDRESS
    · rw [if_pos h2]; rfl
    · rw [if_neg h2]; rfl

def negDataLog : Log :=
  { address := "0xToKenA",
    topics := [TRANSFER_EVENT_SIG, routerTopic, userTopic],
    data := some "-1", blockNumber := "0x3", transactionHash := "0xtxneg" }

def rpcNeg : String → Option TxData :=
  fun h => if h = "0xtxneg" then some ⟨some "0xUserC"⟩ else none

/-- C10 (counterexample): Python's `int(s, 16)` accepts a leading minus
sign, so a log whose `data` field is the string `"-1"` is parsed
successfully and produces a row whose amount is the negative integer
`-1` — the claim's "the amount field is a nonnegative integer" fails. -/
theorem c10_negative_amount_counterexample :
    process_transactions_and_get_users rpcNeg [negDataLog] =
      [{ block_number := 3, tx_hash := "0xtxneg",
         token_address := "0xtokena", real_user := "0xuserc",
         counterparty := "0x1111111111111111111111111111111111111111",
         from_address := PARASWAP_ADDRESS,
         to_address := "0x1111111111111111111111111111111111111111",
         amount := -1, label := "BUY" }] ∧
    (-1 : Int) < 0 := by decide

/-- C10 (amended): every row comes from some input log such that the
amount is 0 whenever that log's `data` is absent, empty or the literal
`'0x'`, and nonnegative whenever the data does not begin (after
whitespace stripping) with a minus sign; and a log whose data is a
non-empty, non-`'0x'` string that cannot be parsed as hexadecimal
produces no row — removing such a log from the input changes no other
row's membership in the output. -/
theorem c10_amount_amended (rpc : String → Option TxData)
    (logs : List Log) :
    (∀ row ∈ process_transactions_and_get_users rpc logs,
      ∃ log ∈ logs,
        ((log.data = none ∨ log.data = some "" ∨ log.data = some "0x") →
          row.amount = 0) ∧
        ((∀ s, log.data = some s → dataStartsWithMinus s = false) →
          0 ≤ row.amount)) ∧
    (∀ (pre post : List Log) (bad : Log) (s : String), bad.data = some s →
      s ≠ "" → s ≠ "0x" → pyIntHex s = none →
      ∀ row,
        row ∈ process_transactions_and_get_users rpc (pre ++ bad :: post) ↔
          row ∈ process_transactions_and_get_users rpc (pre ++ post)) := by
  constructor
  · intro row hrow
    obtain ⟨log, hlog, tx, hrpc, hproc⟩ :=
      (mem_process_transactions_iff rpc logs row).mp hrow
    obtain ⟨t0, t1, t2, rest, hts, amount, bn, hda, hbn, hcase⟩ :=
      processLog_some hproc
    have hamt : row.amount = amount := by
      rcases hcase with ⟨_, rfl⟩ | ⟨_, _, rfl⟩ <;> rfl
    refine ⟨log, hlog, ?_, ?_⟩
    · intro hz
      rw [decodeAmount_zero hz] at hda
      rw [hamt, ← Option.some_inj.mp hda]
    · intro hns
      rw [hamt]
      exact decodeAmount_nonneg hns hda
  · intro pre post bad s hdata hs1 hs2 hbad row
    rw [mem_process_transactions_iff, mem_process_transactions_iff]
    constructor
    · rintro ⟨log, hlog, tx, hrpc, hproc⟩
      rcases List.mem_append.mp hlog with hin | hin
      · exact ⟨log, List.mem_append.mpr (Or.inl hin), tx, hrpc, hproc⟩
      · rcases List.mem_cons.mp hin with rfl | hin'
        · rw [processLog_none_of_bad_data hdata hs1 hs2 hbad] at hproc
          exact absurd hproc (by simp)
        · exact ⟨log, List.mem_append.mpr (Or.inr hin'), tx, hrpc, hproc⟩
    · rintro ⟨log, hlog, tx, hrpc, hproc⟩
      rcases List.mem_append.mp hlog with hin | hin
      · exact ⟨log, List.mem_append.mpr (Or.inl hin), tx, hrpc, hproc⟩
      · exact ⟨log,
          List.mem_append.mpr (Or.inr (List.mem_cons_of_mem _ hin)),
          tx, hrpc, hproc⟩

/-- C10 (witness): the amended amount theorem instantiated on the
concrete BUY transfer with data `0xff`. -/
theorem c10_amount_amended_witness :
    buyRow ∈ process_transactions_and_get_users rpcBuy [buyLog] ∧
    (∃ log ∈ [buyLog],
      ((log.data = none ∨ log.data = some "" ∨ log.data = some "0x") →
        buyRow.amount = 0) ∧
      ((∀ s, log.data = some s → dataStartsWithMinus s = false) →
        0 ≤ buyRow.amount)) :=
  ⟨by decide, (c10_amount_amended rpcBuy [buyLog]).1 buyRow (by decide)⟩

/-! ### Chunk-loop error handling (src/paraswap-incremental.py, lines
295-342)

The `for i, (chunk_start, chunk_end) in enumerate(...)` loop wraps each
chunk in `try/except Exception`: on success it filters the returned logs
and sleeps `REQUEST_DELAY`; on an error it logs, sleeps
`REQUEST_DELAY * 2` and falls through to the next iteration.  `delay`
abstracts the float constant `REQUEST_DELAY = 0.1`, and the RPC call is
abstracted as a function from chunk to `Except`. -/

inductive ChunkEvent where
  | ok (chunk : Nat × Nat) (kept : List Log) (sleep : ℚ)
  | failed (chunk : Nat × Nat) (sleep : ℚ)
deriving DecidableEq

def ChunkEvent.chunk : ChunkEvent → Nat × Nat
  | .ok c _ _ => c
  | .failed c _ => c

def scanChunksLoop (fetch : Nat × Nat → Except String (List Log))
    (arena_tokens : List String) (delay : ℚ) :
    List (Nat × Nat) → List ChunkEvent
  | [] => []
  | c :: rest =>
    match fetch c with
    | .ok logs =>
      .ok c (collect_arena_paraswap_logs arena_tokens logs) delay ::
        scanChunksLoop fetch arena_tokens delay rest
    | .error _ =>
      .failed c (delay * 2) :: scanChunksLoop fetch arena_tokens delay rest

/-- C8: an error while processing one chunk never aborts the run — the
loop produces exactly one event per computed chunk, in order (so every
chunk is visited exactly once and none is retried); a chunk whose fetch
fails yields a `failed` event sleeping twice the request delay, and a
chunk whose fetch succeeds yields its filtered logs and the normal
delay. -/
theorem c8_chunk_errors_never_abort
    (fetch : Nat × Nat → Except String (List Log))
    (arena_tokens : List String) (delay : ℚ) (chunks : List (Nat × Nat)) :
    (scanChunksLoop fetch arena_tokens delay chunks).map ChunkEvent.chunk =
      chunks ∧
    (∀ c ∈ chunks, ∀ err, fetch c = .error err →
      ChunkEvent.failed c (delay * 2) ∈
        scanChunksLoop fetch arena_tokens delay chunks) ∧
    (∀ c ∈ chunks, ∀ logs, fetch c = .ok logs →
      ChunkEvent.ok c (collect_arena_paraswap_logs arena_tokens logs)
          delay ∈
        scanChunksLoop fetch arena_tokens delay chunks) := by
  induction chunks with
  | nil => exact ⟨rfl, by simp, by simp⟩
  | cons c rest ih =>
    obtain ⟨ih1, ih2, ih3⟩ := ih
    rcases hf : fetch c with err | logs
    · refine ⟨?_, ?_, ?_⟩
      · simp only [scanChunksLoop, hf, List.map_cons, ChunkEvent.chunk, ih1]
      · intro c' hc' err' herr'
        simp only [scanChunksLoop, hf, List.mem_cons]
        rcases List.mem_cons.mp hc' with rfl | hc''
        · exact Or.inl rfl
        · exact Or.inr (ih2 c' hc'' err' herr')
      · intro c' hc' logs' hlogs'
        simp only [scanChunksLoop, hf, List.mem_cons]
        rcases List.mem_cons.mp hc' with rfl | hc''
        · rw [hf] at hlogs'
          exact absurd hlogs' (by simp)
        · exact Or.inr (ih3 c' hc'' logs' hlogs')
    · refine ⟨?_, ?_, ?_⟩
      · simp only [scanChunksLoop, hf, List.map_cons, ChunkEvent.chunk, ih1]
      · intro c' hc' err' herr'
        simp only [scanChunksLoop, hf, List.mem_cons]
        rcases List.mem_cons.mp hc' with rfl | hc''
        · rw [hf] at herr'
          exact absurd herr' (by simp)
        · exact Or.inr (ih2 c' hc'' err' herr')
      · intro c' hc' logs' hlogs'
        simp only [scanChunksLoop, hf, List.mem_cons]
        rcases List.mem_cons.mp hc' with rfl | hc''
        · rw [hf] at hlogs'
          rw [Except.ok.injEq] at hlogs'
          exact Or.inl (by rw [hlogs'])
        · exact Or.inr (ih3 c' hc'' logs' hlogs')

/-- A fetch function that fails on exactly one chunk, for the C8
witness. -/
def fetchOneFailure : Nat × Nat → Except String (List Log) :=
  fun c => if c = (2000, 4000) then .error "boom" else .ok []

/-- C8 (witness): the loop theorem instantiated on the chunks of the
range 0..6000 with a fetch that fails on the middle chunk. -/
theorem c8_chunk_errors_never_abort_witness :
    ((scanChunksLoop fetchOneFailure [] 1 (blockChunks 0 6000)).map
        ChunkEvent.chunk = blockChunks 0 6000 ∧
      (∀ c ∈ blockChunks 0 6000, ∀ err, fetchOneFailure c = .error err →
        ChunkEvent.failed c (1 * 2) ∈
          scanChunksLoop fetchOneFailure [] 1 (blockChunks 0 6000)) ∧
      (∀ c ∈ blockChunks 0 6000, ∀ logs, fetchOneFailure c = .ok logs →
        ChunkEvent.ok c (collect_arena_paraswap_logs [] logs) 1 ∈
          scanChunksLoop fetchOneFailure [] 1 (blockChunks 0 6000))) ∧
    fetchOneFailure (2000, 4000) = .error "boom" ∧
    (2000, 4000) ∈ blockChunks 0 6000 :=
  ⟨c8_chunk_errors_never_abort fetchOneFailure [] 1 (blockChunks 0 6000),
    rfl, by decide⟩

/-! ### multi.py SimpleWorker (src/multi.py, lines 143-283)

`process_block_range` walks `range(start_block, end_block + 1)`, fetches
each block with its transactions (an RPC failure is caught, counted and
the loop continues), keeps the transactions for which
`is_paraswap_transaction` and `has_target_tokens` hold, builds the
`trade_data` dict of lines 236-245 and hands it to `save_simple_trade`,
whose INSERT (lines 171-191) supplies `"ParaSwap"`, `True`, `True` for the
last three columns.  The receipt-scanning `has_target_tokens` check is
abstracted as an oracle. -/

structure MultiTx where
  hash : String
  toAddr : Option String
  fromAddr : String
deriving DecidableEq

structure MultiBlock where
  timestamp : Nat
  transactions : List MultiTx
deriving DecidableEq

/-- `is_paraswap_transaction` (lines 143-145):
`tx.to and tx.to.lower() in self.paraswap_addresses`. -/
def is_paraswap_transaction (paraswap_addresses : List String)
    (tx : MultiTx) : Bool :=
  match tx.toAddr with
  | some t => paraswap_addresses.contains (pyLower t)
  | none => false

/-- A row of `target_token_trades` as inserted by `save_simple_trade`. -/
structure TargetTokenTradeRow where
  tx_hash : String
  block_number : Nat
  timestamp : Nat
  user_address : String
  token_in_symbol : String
  token_out_symbol : String
  amount_in : ℚ
  amount_out : ℚ
  trade_type : String
  contract_used : String
  is_target_token_in : Bool
  is_target_token_out : Bool
deriving DecidableEq

/-- The `trade_data` dict of lines 236-245 combined with the constants
`save_simple_trade` adds in its INSERT (lines 171-191).  The float
literals `0.0` are modelled as the rational 0. -/
def make_simple_trade_row (block_num : Nat) (ts : Nat) (tx : MultiTx) :
    TargetTokenTradeRow :=
  { tx_hash := tx.hash, block_number := block_num, timestamp := ts,
    user_address := tx.fromAddr, token_in_symbol := "UNKNOWN",
    token_out_symbol := "TARGET", amount_in := 0, amount_out := 0,
    trade_type := "SWAP", contract_used := "ParaSwap",
    is_target_token_in := true, is_target_token_out := true }

/-- The rows `process_block_range` hands to `save_simple_trade` over a
block range (lines 209-283). -/
def process_block_range_rows (blocks : Nat → Option MultiBlock)
    (has_target_tokens : Nat → String → Bool)
    (paraswap_addresses : List String) (start_block end_block : Nat) :
    List TargetTokenTradeRow :=
  (List.range' start_block (end_block + 1 - start_block)).flatMap fun bn =>
    match blocks bn with
    | none => []
    | some b =>
      b.transactions.filterMap fun tx =>
        if is_paraswap_transaction paraswap_addresses tx &&
            has_target_tokens bn tx.hash then
          some (make_simple_trade_row bn b.timestamp tx)
        else none

/-- C9: every trade row saved by `SimpleWorker` carries the fixed
placeholder values, regardless of the transaction's contents:
`trade_type = 'SWAP'`, `token_in_symbol = 'UNKNOWN'`,
`token_out_symbol = 'TARGET'`, `amount_in = amount_out = 0.0`, and both
target-token flags TRUE (with `contract_used = 'ParaSwap'`). -/
theorem c9_placeholder_trade_rows (blocks : Nat → Option MultiBlock)
    (has_target_tokens : Nat → String → Bool)
    (paraswap_addresses : List String) (start_block end_block : Nat)
    (row : TargetTokenTradeRow)
    (hrow : row ∈ process_block_range_rows blocks has_target_tokens
      paraswap_addresses start_block end_block) :
    row.trade_type = "SWAP" ∧ row.token_in_symbol = "UNKNOWN" ∧
    row.token_out_symbol = "TARGET" ∧ row.amount_in = 0 ∧
    row.amount_out = 0 ∧ row.is_target_token_in = true ∧
    row.is_target_token_out = true ∧ row.contract_used = "ParaSwap" := by
  unfold process_block_range_rows at hrow
  obtain ⟨bn, _, hb⟩ := List.mem_flatMap.mp hrow
  rcases hblk : blocks bn with _ | blk
  · rw [hblk] at hb; simp at hb
  · rw [hblk] at hb
    obtain ⟨tx, _, htx⟩ := List.mem_filterMap.mp hb
    by_cases hc : is_paraswap_transaction paraswap_addresses tx &&
        has_target_tokens bn tx.hash
    · rw [if_pos hc] at htx
      rw [← Option.some_inj.mp htx]
      exact ⟨rfl, rfl, rfl, rfl, rfl, rfl, rfl, rfl⟩
    · rw [if_neg hc] at htx
      exact absurd htx (by simp)

/-- Concrete one-block chain for the C9 witness: one transaction whose
`to` is the router and whose receipt passes the target-token check. -/
def oneTradeBlocks : Nat → Option MultiBlock :=
  fun bn =>
    if bn = 5 then
      some { timestamp := 777,
             transactions := [{ hash := "0xabc",
                                toAddr := some PARASWAP_ADDRESS,
                                fromAddr := "0xCaller" }] }
    else none

/-- C9 (witness): the placeholder theorem instantiated on the concrete
one-transaction block range 5..5. -/
theorem c9_placeholder_trade_rows_witness :
    make_simple_trade_row 5 777
        { hash := "0xabc", toAddr := some PARASWAP_ADDRESS,
          fromAddr := "0xCaller" } ∈
      process_block_range_rows oneTradeBlocks (fun _ _ => true)
        [PARASWAP_ADDRESS] 5 5 ∧
    ((make_simple_trade_row 5 777
        { hash := "0xabc", toAddr := some PARASWAP_ADDRESS,
          fromAddr := "0xCaller" }).trade_type = "SWAP" ∧
      (make_simple_trade_row 5 777
        { hash := "0xabc", toAddr := some PARASWAP_ADDRESS,
          fromAddr := "0xCaller" }).token_in_symbol = "UNKNOWN" ∧
      (make_simple_trade_row 5 777
        { hash := "0xabc", toAddr := some PARASWAP_ADDRESS,
          fromAddr := "0xCaller" }).token_out_symbol = "TARGET" ∧
      (make_simple_trade_row 5 777
        { hash := "0xabc", toAddr := some PARASWAP_ADDRESS,
          fromAddr := "0xCaller" }).amount_in = 0 ∧
      (make_simple_trade_row 5 777
        { hash := "0xabc", toAddr := some PARASWAP_ADDRESS,
          fromAddr := "0xCaller" }).amount_out = 0 ∧
      (make_simple_trade_row 5 777
        { hash := "0xabc", toAddr := some PARASWAP_ADDRESS,
          fromAddr := "0xCaller" }).is_target_token_in = true ∧
      (make_simple_trade_row 5 777
        { hash := "0xabc", toAddr := some PARASWAP_ADDRESS,
          fromAddr := "0xCaller" }).is_target_token_out = true ∧
      (make_simple_trade_row 5 777
        { hash := "0xabc", toAddr := some PARASWAP_ADDRESS,
          fromAddr := "0xCaller" }).contract_used = "ParaSwap") :=
  ⟨by decide,
    c9_placeholder_trade_rows oneTradeBlocks (fun _ _ => true)
      [PARASWAP_ADDRESS] 5 5 _ (by decide)⟩

/-! ### Trade upserts

`target_token_trades` is created with `tx_hash VARCHAR(66) UNIQUE`
(filtered_token.py lines 187-206, multi.py lines 346-362), so its
`INSERT ... ON CONFLICT (tx_hash) DO NOTHING` (filtered_token.py lines
441-456, multi.py lines 171-191) inserts a row exactly when no existing
row carries the same tx hash.

`paraswap_arena_users` (paraswap-incremental.py lines 445-459) declares
only `id SERIAL PRIMARY KEY` — no constraint mentions `tx_hash`, and the
four `CREATE INDEX` statements build non-unique indexes — so the bare
`ON CONFLICT DO NOTHING` of line 474 can only suppress a violation of the
serial primary key, which a fresh serial value never produces. -/

/-- A row of `target_token_trades` as inserted by
`AutoPostgresScanner.save_trade` (filtered_token.py lines 441-456). -/
structure TradeEventRow where
  tx_hash : String
  block_number : Nat
  timestamp : Nat
  user_address : String
  token_in_address : String
  token_in_symbol : String
  token_out_address : String
  token_out_symbol : String
  amount_in : ℚ
  amount_out : ℚ
  trade_type : String
  usd_value : ℚ
  gas_used : Nat
  contract_used : String
  is_target_token_in : Bool
  is_target_token_out : Bool
deriving DecidableEq

/-- `save_trade`: `INSERT ... ON CONFLICT (tx_hash) DO NOTHING` against
the unique constraint on `tx_hash`. -/
def save_trade (table : List TradeEventRow) (t : TradeEventRow) :
    List TradeEventRow :=
  if table.any (fun r => r.tx_hash == t.tx_hash) then table
  else table ++ [t]

/-- `paraswap_arena_users` with its serial id column made explicit; the
only uniqueness constraint is on `id`. -/
structure ParaswapUsersTable where
  nextId : Nat
  rows : List (Nat × UserTxRow)
deriving DecidableEq

/-- One execution of the INSERT of lines 470-479: `ON CONFLICT DO
NOTHING` without a conflict target skips the row exactly when some unique
constraint is violated, and the only unique column is the serial `id`. -/
def insert_paraswap_user (tbl : ParaswapUsersTable) (t : UserTxRow) :
    ParaswapUsersTable :=
  if tbl.rows.any (fun r => r.1 == tbl.nextId) then tbl
  else { nextId := tbl.nextId + 1, rows := tbl.rows ++ [(tbl.nextId, t)] }

/-- `upload_new_data_to_database` (lines 427-490): the insert loop over
`user_transactions`. -/
def upload_new_data_to_database (tbl : ParaswapUsersTable)
    (user_transactions : List UserTxRow) : ParaswapUsersTable :=
  user_transactions.foldl insert_paraswap_user tbl

/-- C1: the claim holds for `target_token_trades` — `save_trade` is an
idempotent upsert keyed by tx hash — but fails for
`paraswap_arena_users`: that table has no uniqueness constraint on
`tx_hash`, its `ON CONFLICT DO NOTHING` never fires, and re-running
`upload_new_data_to_database` over the same single decoded row on a fresh
table yields two rows with the same tx hash. -/
theorem c1_upsert_idempotency_bug :
    (∀ (table : List TradeEventRow) (t : TradeEventRow),
      save_trade (save_trade table t) t = save_trade table t) ∧
    (upload_new_data_to_database
        (upload_new_data_to_database ⟨0, []⟩ [buyRow]) [buyRow]).rows.length
      = 2 ∧
    ((upload_new_data_to_database
        (upload_new_data_to_database ⟨0, []⟩ [buyRow]) [buyRow]).rows.filter
      (fun r => r.2.tx_hash == buyRow.tx_hash)).length = 2 := by
  refine ⟨?_, by decide, by decide⟩
  intro table t
  by_cases h : table.any (fun r => r.tx_hash == t.tx_hash)
  · simp [save_trade, h]
  · simp [save_trade, h]

/-! ### The scan checkpoint (src/paraswap-incremental.py, lines 178-238)

`create_scanning_checkpoint` runs, inside one `try`:

1. `CREATE TABLE IF NOT EXISTS paraswap_scan_checkpoints` — the table
   declares `scan_type VARCHAR(50)` with no unique constraint;
2. two stats SELECTs;
3. `INSERT ... ON CONFLICT (scan_type) DO UPDATE ...` — Postgres rejects
   an `ON CONFLICT (col)` clause when no unique or exclusion constraint
   matches `col`, raising an error;
4. a `DO $$ ... ALTER TABLE ADD CONSTRAINT unique_scan_type UNIQUE
   (scan_type)` block; 5. `COMMIT`.

Step 4 — the only statement anywhere in the repository that would create
the constraint step 3 needs — is placed after step 3, so on a database
where the constraint does not exist step 3 raises, the outer `except`
swallows the error, and neither the insert nor the ALTER is ever
committed.  The model tracks whether the constraint exists and the
committed rows. -/

structure CheckpointRow where
  scan_type : String
  last_block : Int
  total_transactions : Int
  unique_users : Int
deriving DecidableEq

structure CheckpointDB where
  has_unique_scan_type : Bool
  rows : List CheckpointRow
deriving DecidableEq

def create_scanning_checkpoint (db : CheckpointDB) (block_number : Int)
    (total_tx unique_users : Int) : CheckpointDB :=
  if db.has_unique_scan_type then
    { has_unique_scan_type := true,
      rows :=
        if db.rows.any (fun r => r.scan_type == "incremental") then
          db.rows.map fun r =>
            if r.scan_type == "incremental" then
              { r with last_block := block_number,
                       total_transactions := total_tx,
                       unique_users := unique_users }
            else r
        else db.rows ++ [⟨"incremental", block_number, total_tx,
          unique_users⟩] }
  else db

/-- C6: the checkpoint is never persisted at all.  Starting from the
state the `CREATE TABLE IF NOT EXISTS` leaves on a fresh database (no
unique constraint on `scan_type`, no rows), every sequence of checkpoint
saves — whatever block numbers and stats — leaves the checkpoint table
empty and the constraint absent, because the `ON CONFLICT (scan_type)`
insert always errors before the ALTER that would add the constraint. -/
theorem c6_checkpoint_never_persisted (saves : List (Int × Int × Int)) :
    saves.foldl
        (fun db s => create_scanning_checkpoint db s.1 s.2.1 s.2.2)
        ⟨false, []⟩ =
      ⟨false, []⟩ := by
  induction saves with
  | nil => rfl
  | cons s rest ih => exact ih

end GraphQuery
